import Mathlib

/-!
Verification of the `DiagnoseInfiniteRecursion` SIL pass and the
`Fingerprint` hex codec, via a shallow embedding of the C++ sources
(`DiagnoseInfiniteRecursion.cpp`, `Fingerprint.cpp`).

The embedding keeps the source structure: the `Invariants` bitmask class,
the call classifier `isRecursiveCall`, the memory-effect filter
`mayWriteToMemory`, the use-def invariance walker `isInvariantValue`,
the per-block summary `BlockInfo`, the backward propagation
`isEntryReachableFromReturn`, the forward pass
`findRecursiveCallsAndDiagnose`, the candidate collection
`collectInvariantsToTry` and the pass driver `run`.
External IR facts (memory-effect query results, dispatch-resolution query
results, terminator kinds, successor edges) are fields of the embedded
data, exactly the information the C++ code reads through its collaborator
interfaces.
-/

/-- Argument value passed at an apply site, as far as the pass inspects it:
the C++ code only compares `stripAccessMarkers(arg)` against the enclosing
function's incoming arguments, so an argument is either (after stripping
access markers) the incoming function argument with index `idx`, or some
other value. -/
inductive Arg where
  | fwd (idx : Nat)
  | otherArg
deriving DecidableEq, Repr

/-- Models `stripAccessMarkers(argAndIndex.value()) == incomingArgs[argIdx]`:
the stripped apply-site argument is exactly the `i`-th incoming argument. -/
def strippedEqualsIncoming : Arg → Nat → Bool
  | .fwd j, i => j == i
  | .otherArg, _ => false

/-- The `Invariants` class: a bitmask with bit 0 for invariant memory and
bits `1..` for invariant argument positions. -/
structure Invariants where
  bitMask : Nat
deriving DecidableEq, Repr

namespace Invariants

/-- Enum `invariantMemoryBit = 0`. -/
def invariantMemoryBit : Nat := 0

/-- Enum `firstArgBit = 1`. -/
def firstArgBit : Nat := 1

/-- Enum `maxArgIndex = 16`. -/
def maxArgIndex : Nat := 16

/-- Member `isBitSet`: `(bitMask & (1 << bitNr)) != 0`. -/
def isBitSet (inv : Invariants) (bitNr : Nat) : Bool :=
  inv.bitMask &&& (1 <<< bitNr) != 0

/-- Static member `noInvariants()`. -/
def noInvariants : Invariants := ⟨0⟩

/-- Member `isMemoryInvariant()`. -/
def isMemoryInvariant (inv : Invariants) : Bool :=
  inv.isBitSet invariantMemoryBit

/-- Member `withInvariantMemory()`: `bitMask | (1 << invariantMemoryBit)`. -/
def withInvariantMemory (inv : Invariants) : Invariants :=
  ⟨inv.bitMask ||| (1 <<< invariantMemoryBit)⟩

/-- Member `isArgumentInvariant`: `argIdx <= maxArgIndex && isBitSet (argIdx + firstArgBit)`. -/
def isArgumentInvariant (inv : Invariants) (argIdx : Nat) : Bool :=
  argIdx ≤ maxArgIndex && inv.isBitSet (argIdx + firstArgBit)

/-- Static member `fromForwardingArguments`: sets the bit for every argument
position `argIdx ≤ maxArgIndex` whose stripped value equals the incoming
argument at the same position. -/
def fromForwardingArguments (args : List Arg) : Invariants :=
  ⟨args.enum.foldl
    (fun mask p =>
      if p.1 ≤ maxArgIndex && strippedEqualsIncoming p.2 p.1 then
        mask ||| (1 <<< (p.1 + firstArgBit))
      else mask)
    0⟩

/-- Member `hasInvariantArguments`: false iff some argument position marked
invariant is not forwarded unchanged. -/
def hasInvariantArguments (inv : Invariants) (args : List Arg) : Bool :=
  args.enum.all
    (fun p => !(inv.isArgumentInvariant p.1 && !strippedEqualsIncoming p.2 p.1))

end Invariants

/-- The callee operand of a full apply site, with the results of the external
dispatch-resolution queries that `isRecursiveCall` consults:
* `direct fn`: `getReferencedFunctionOrNull()` returns function `fn`;
* `superMethod`, `objcSuperMethod`, `objcMethod`: the excluded dispatch kinds;
* `classMethod classDeclModule calleesKnowable methodOverridden targetMethod`:
  a `ClassMethodInst`; `classDeclModule` is the module of the operand's class
  decl (`none` when the class decl is null), `calleesKnowable` is the result
  of `calleesAreStaticallyKnowable`, `methodOverridden` the result of
  `methodDecl->isOverridden()`, and `targetMethod` the result of
  `getTargetClassMethod` (`none` when null);
* `witnessMethod witnessLookup`: a `WitnessMethodInst`; `witnessLookup` is
  `lookUpFunctionInWitnessTable(...).first` (`none` when null);
* `otherCallee`: any other callee, reaching the final `return false`. -/
inductive Callee where
  | direct (fn : Nat)
  | superMethod
  | objcSuperMethod
  | objcMethod
  | classMethod (classDeclModule : Option Nat) (calleesKnowable : Bool)
      (methodOverridden : Bool) (targetMethod : Option Nat)
  | witnessMethod (witnessLookup : Option Nat)
  | otherCallee
deriving DecidableEq, Repr

/-- A full apply site, together with the enclosing-function facts that
`isRecursiveCall` reads: `applySite.getFunction()` and its module. -/
structure ApplySite where
  parentFunc : Nat
  parentModule : Nat
  callee : Callee
deriving DecidableEq, Repr

/-- `isRecursiveCall`: true if the apply site calls the containing function. -/
def isRecursiveCall (s : ApplySite) : Bool :=
  match s.callee with
  | .direct fn => fn == s.parentFunc
  | .superMethod => false
  | .objcSuperMethod => false
  | .objcMethod => false
  | .classMethod classDeclModule calleesKnowable methodOverridden targetMethod =>
    if classDeclModule.any (fun m => m != s.parentModule) then false
    else if !calleesKnowable then false
    else if methodOverridden then false
    else targetMethod == some s.parentFunc
  | .witnessMethod witnessLookup => witnessLookup == some s.parentFunc
  | .otherCallee => false

/-- A callee that requires dynamic dispatch of class-method or
witness-method style. -/
def isClassOrWitnessMethodCallee : Callee → Bool
  | .classMethod _ _ _ _ => true
  | .witnessMethod _ => true
  | _ => false

/-- The set of possible callees is closed and statically enumerable for the
callee's declaration: for a class method this is the in-module vtable
restriction together with `calleesAreStaticallyKnowable`; for a witness
method the concrete conformance's witness-table lookup succeeding. -/
def calleesClosedAndEnumerable (s : ApplySite) : Bool :=
  match s.callee with
  | .classMethod classDeclModule calleesKnowable _ _ =>
    !(classDeclModule.any (fun m => m != s.parentModule)) && calleesKnowable
  | .witnessMethod witnessLookup => witnessLookup.isSome
  | _ => false

/-- The declared method has no further override point that could change
resolution: `!methodDecl->isOverridden()` for a class method; a witness
method resolved through a concrete conformance has none. -/
def hasNoFurtherOverride (s : ApplySite) : Bool :=
  match s.callee with
  | .classMethod _ _ methodOverridden _ => !methodOverridden
  | .witnessMethod _ => true
  | _ => false

/-- The single resolved target of the dynamically dispatched call. -/
def resolvedTarget (s : ApplySite) : Option Nat :=
  match s.callee with
  | .classMethod _ _ _ targetMethod => targetMethod
  | .witnessMethod witnessLookup => witnessLookup
  | _ => none

/-- A node of the use-def value graph, as inspected by `isInvariantValue`:
an instruction result (with the external `mayReadFromMemory` query result
and its operand nodes), an incoming function argument
(`SILFunctionArgument` with its index), or any other value kind (the final
conservative `return false`). -/
inductive NodeKind (n : Nat) where
  | instNode (mayRead : Bool) (operands : List (Fin n))
  | funcArg (argIdx : Nat)
  | otherNode
deriving DecidableEq

/-- The finite use-def graph of the function's values. `kind v` gives the
defining node of value `v`. -/
structure ValueGraph where
  n : Nat
  kind : Fin n → NodeKind n

/-- Operand loop of `isInvariantValue`: recurses via `step` into each operand
in order, threading the (by-reference in C++) visited set, and returns false
as soon as one operand chain is not invariant. -/
def walkOperands {n : Nat}
    (step : Fin n → Finset (Fin n) → Option (Bool × Finset (Fin n))) :
    List (Fin n) → Finset (Fin n) → Option (Bool × Finset (Fin n))
  | [], visited => some (true, visited)
  | op :: rest, visited =>
    match step op visited with
    | none => none
    | some (false, visited1) => some (false, visited1)
    | some (true, visited1) => walkOperands step rest visited1

/-- Member `isInvariantValue`, fuel-indexed: walks the use-def chain of a
value. A node already in the visited set yields true without recursing; an
instruction node is non-invariant if memory is not assumed invariant and it
may read memory, else all operands must be invariant; a function argument
consults `isArgumentInvariant`; any other value is non-invariant.
`none` means the fuel ran out (shown never to happen with fuel
`g.n + 1 - visited.card`, see `walkValue_sufficient`). -/
def walkValue (g : ValueGraph) (inv : Invariants) :
    Nat → Fin g.n → Finset (Fin g.n) → Option (Bool × Finset (Fin g.n))
  | 0, _, _ => none
  | fuel + 1, v, visited =>
    if v ∈ visited then some (true, visited)
    else
      match g.kind v with
      | .instNode mayRead ops =>
        if !inv.isMemoryInvariant && mayRead then some (false, insert v visited)
        else walkOperands (walkValue g inv fuel) ops (insert v visited)
      | .funcArg argIdx => some (inv.isArgumentInvariant argIdx, insert v visited)
      | .otherNode => some (false, insert v visited)

/-- Entry point corresponding to the `isInvariant` call sites: a fresh
visited set, with definitionally sufficient fuel. -/
def isInvariantValue (g : ValueGraph) (inv : Invariants) (v : Fin g.n) : Bool :=
  match walkValue g inv (g.n + 1) v ∅ with
  | some (r, _) => r
  | none => false

/-- A two-node use-def graph whose definition chain cycles back on itself:
each node is an instruction whose only operand is the other node. -/
abbrev cycleGraph : ValueGraph := ⟨2, fun v => .instNode false [v + 1]⟩

/-- An instruction of a basic block, as far as the pass inspects it:
a full apply site (`FullApplySite::isa` succeeds) with the result of
`isCalleeKnownProgramTerminationPoint`, its callee, its forwarded-argument
shapes and the generic `mayWriteToMemory` query result; or a load,
begin-access or end-access instruction (the explicitly excluded kinds of the
memory-effect filter); or any other instruction with its generic
`mayWriteToMemory` query result. -/
inductive Inst where
  | applyI (terminationPoint : Bool) (callee : Callee) (args : List Arg)
      (mayWriteGeneric : Bool)
  | loadI
  | beginAccessI
  | endAccessI
  | otherI (mayWriteGeneric : Bool)
deriving DecidableEq, Repr

/-- The memory-effect filter `mayWriteToMemory`: loads and access-bracketing
instructions are excluded; everything else defers to the generic query. -/
def mayWriteToMemory : Inst → Bool
  | .loadI => false
  | .beginAccessI => false
  | .endAccessI => false
  | .applyI _ _ _ w => w
  | .otherI w => w

/-- The terminator kinds distinguished by `Invariants::isInvariant`. Every
kind outside this enumeration (branches, returns, unreachable, ...) is
`otherTermKind`, reaching the `default: return false` arm. -/
inductive TermKind where
  | condBranch
  | switchValue
  | switchEnum
  | switchEnumAddr
  | checkedCastBranch
  | checkedCastValueBranch
  | checkedCastAddrBranch
  | otherTermKind
deriving DecidableEq, Repr

/-- A block terminator: its kind, its first operand (the branch discriminant,
a node of the value graph; `none` when the terminator has no operand), its
successor edges (block indices, one entry per edge), and the results of the
external `isFunctionExiting` and `isProgramTerminating` queries. -/
structure Term (n : Nat) where
  kind : TermKind
  cond : Option (Fin n)
  succs : List Nat
  functionExiting : Bool
  programTerminating : Bool

/-- Member `Invariants::isInvariant(TermInst *)`: address-based variants
additionally require memory invariance; the data-dependent kinds run the
use-def walker on operand 0; every other kind is not invariant. -/
def Invariants.isInvariant (inv : Invariants) (g : ValueGraph) (t : Term g.n) :
    Bool :=
  let condInvariant : Bool :=
    match t.cond with
    | some c => isInvariantValue g inv c
    | none => false
  match t.kind with
  | .switchEnumAddr => inv.isMemoryInvariant && condInvariant
  | .checkedCastAddrBranch => inv.isMemoryInvariant && condInvariant
  | .condBranch => condInvariant
  | .switchValue => condInvariant
  | .switchEnum => condInvariant
  | .checkedCastBranch => condInvariant
  | .checkedCastValueBranch => condInvariant
  | .otherTermKind => false

/-- A basic block: ordered instructions plus a terminator. -/
structure BasicBlock (n : Nat) where
  insts : List Inst
  term : Term n

/-- A function: its identity, module, the `wasDeserializedCanonical` query
result, its value graph and its blocks; block 0 is the entry block. -/
structure SILFunction where
  id : Nat
  moduleId : Nat
  wasDeserializedCanonical : Bool
  graph : ValueGraph
  blocks : List (BasicBlock graph.n)

/-- Block-specific info needed for the analysis (`struct BlockInfo`).
`recursiveCall` holds the index of the recursive call instruction in the
block, when there is one. -/
structure BlockInfo where
  recursiveCall : Option Nat
  numSuccsNotReachingReturn : Nat
  hasInvariantCondition : Bool
  reachesReturn : Bool
  reachableFromEntry : Bool
deriving DecidableEq, Repr

/-- Outcome of the in-order instruction scan of the `BlockInfo` constructor:
stopped at a program-termination-point call, stopped at the first recursive
call consistent with the invariants (recording its index), stopped at a
memory-writing instruction under assumed memory invariance, or ran off the
end of the block. -/
inductive ScanOutcome where
  | termPoint
  | recCall (idx : Nat)
  | memWrite
  | fallthrough
deriving DecidableEq, Repr

/-- The instruction loop of the `BlockInfo` constructor, with `idx` the index
of the first instruction of `insts` within the block. -/
def scanInsts (pf pm : Nat) (inv : Invariants) : List Inst → Nat → ScanOutcome
  | [], _ => .fallthrough
  | inst :: rest, idx =>
    match inst with
    | .applyI terminationPoint callee args w =>
      if terminationPoint then .termPoint
      else if isRecursiveCall ⟨pf, pm, callee⟩ && inv.hasInvariantArguments args
        then .recCall idx
      else if inv.isMemoryInvariant
          && mayWriteToMemory (.applyI terminationPoint callee args w)
        then .memWrite
      else scanInsts pf pm inv rest (idx + 1)
    | other =>
      if inv.isMemoryInvariant && mayWriteToMemory other then .memWrite
      else scanInsts pf pm inv rest (idx + 1)

/-- The `BlockInfo` constructor `BlockInfo(SILBasicBlock *, Invariants)`:
counter initialized to the successor-edge count, invariant-condition flag
from the terminator, then the in-order scan; on fallthrough, a
function-exiting or program-terminating terminator seeds `reachesReturn`. -/
def mkBlockInfo (pf pm : Nat) (inv : Invariants) (g : ValueGraph)
    (b : BasicBlock g.n) : BlockInfo :=
  let base : BlockInfo :=
    { recursiveCall := none
      numSuccsNotReachingReturn := b.term.succs.length
      hasInvariantCondition := inv.isInvariant g b.term
      reachesReturn := false
      reachableFromEntry := false }
  match scanInsts pf pm inv b.insts 0 with
  | .termPoint => base
  | .recCall idx => { base with recursiveCall := some idx }
  | .memWrite => { base with reachesReturn := true }
  | .fallthrough =>
    if b.term.functionExiting || b.term.programTerminating then
      { base with reachesReturn := true }
    else base

/-- Placeholder for the unreachable `BlockInfo()` default constructor, only
used by out-of-range lookups that the analysis never performs. -/
def defaultBlockInfo : BlockInfo :=
  { recursiveCall := none
    numSuccsNotReachingReturn := 0
    hasInvariantCondition := false
    reachesReturn := false
    reachableFromEntry := false }

/-- The `info(block)` map lookup, with blocks identified by index. -/
def getInfo (infos : List BlockInfo) (i : Nat) : BlockInfo :=
  infos.getD i defaultBlockInfo

/-- Successor edges of block `b` of function `f`. -/
def succsOf (f : SILFunction) (b : Nat) : List Nat :=
  match f.blocks[b]? with
  | some blk => blk.term.succs
  | none => []

/-- Predecessor edges of block `b` of function `f`
(`block->getPredecessorBlocks()`): one entry per incoming edge, in block
order. -/
def predsOf (f : SILFunction) (b : Nat) : List Nat :=
  (List.range f.blocks.length).flatMap
    (fun i => (succsOf f i).filterMap (fun s => if s == b then some i else none))

/-- The per-predecessor body of the backward propagation loop of
`isEntryReachableFromReturn`: skip a predecessor that already reaches a
return or holds a recursive call; otherwise decrement its
remaining-successor counter; an invariant-condition block with a still
positive counter waits; otherwise the predecessor acquires `reachesReturn`
and is pushed (the returned Bool). -/
def updatePred (infos : List BlockInfo) (p : Nat) : List BlockInfo × Bool :=
  let pi := getInfo infos p
  if pi.reachesReturn || pi.recursiveCall.isSome then (infos, false)
  else
    let pi1 := { pi with numSuccsNotReachingReturn := pi.numSuccsNotReachingReturn - 1 }
    if pi1.hasInvariantCondition && pi1.numSuccsNotReachingReturn > 0 then
      (infos.set p pi1, false)
    else
      (infos.set p { pi1 with reachesReturn := true }, true)

/-- Processes all predecessors of a popped block, in order, threading the
info map and collecting the pushed blocks in stack order (the head of the
returned list is the next block to pop). -/
def processPreds (infos : List BlockInfo) : List Nat → List BlockInfo × List Nat
  | [] => (infos, [])
  | p :: rest =>
    let r1 := updatePred infos p
    let r2 := processPreds r1.1 rest
    (r2.1, if r1.2 then r2.2 ++ [p] else r2.2)

/-- One iteration of the backward worklist loop: pop the top block and
process its predecessors. -/
def propStep (f : SILFunction) (infos : List BlockInfo) (workList : List Nat) :
    List BlockInfo × List Nat :=
  match workList with
  | [] => (infos, [])
  | b :: rest =>
    let r := processPreds infos (predsOf f b)
    (r.1, r.2 ++ rest)

/-- The backward worklist loop, fuel-indexed. The loop pops one block per
iteration and pushes a block only when its `reachesReturn` flag flips from
false to true, so `2 * f.blocks.length + 1` iterations always drain the
worklist. -/
def propagate (f : SILFunction) :
    Nat → List BlockInfo → List Nat → List BlockInfo × List Nat
  | 0, infos, workList => (infos, workList)
  | fuel + 1, infos, workList =>
    match workList with
    | [] => (infos, [])
    | b :: rest =>
      let r := propStep f infos (b :: rest)
      propagate f fuel r.1 r.2

/-- The initial block-info map: one `BlockInfo` per block, in block order. -/
def initInfos (f : SILFunction) (inv : Invariants) : List BlockInfo :=
  f.blocks.map (fun b => mkBlockInfo f.id f.moduleId inv f.graph b)

/-- The initial worklist: every block whose `reachesReturn` flag is already
set, pushed in block order (so the last block is popped first). -/
def initialWorkList (infos : List BlockInfo) : List Nat :=
  ((List.range infos.length).filter (fun i => (getInfo infos i).reachesReturn)).reverse

/-- Fuel sufficient to drain the backward worklist. -/
def propFuel (f : SILFunction) : Nat := 2 * f.blocks.length + 1

/-- `isEntryReachableFromReturn`: builds the block infos, runs the backward
propagation and reports whether the entry block (block 0) reaches a return.
Also returns the final info map, which the forward pass reuses. -/
def isEntryReachableFromReturn (f : SILFunction) (inv : Invariants) :
    List BlockInfo × Bool :=
  let infos := initInfos f inv
  let r := propagate f (propFuel f) infos (initialWorkList infos)
  (r.1, (getInfo r.1 0).reachesReturn)

/-- The successor loop of the forward pass: marks and pushes every successor
that neither reaches a return nor is already reachable from entry, in stack
order. -/
def forwardSuccs (infos : List BlockInfo) : List Nat → List BlockInfo × List Nat
  | [] => (infos, [])
  | s :: rest =>
    let si := getInfo infos s
    if !si.reachesReturn && !si.reachableFromEntry then
      let r := forwardSuccs (infos.set s { si with reachableFromEntry := true }) rest
      (r.1, r.2 ++ [s])
    else forwardSuccs infos rest

/-- The forward worklist loop of `findRecursiveCallsAndDiagnose`,
fuel-indexed, accumulating the diagnosed call sites (block index,
instruction index) in reverse emission order. -/
def findRecLoop (f : SILFunction) :
    Nat → List BlockInfo → List Nat → List (Nat × Nat) → List (Nat × Nat)
  | 0, _, _, diags => diags.reverse
  | _ + 1, _, [], diags => diags.reverse
  | fuel + 1, infos, b :: rest, diags =>
    match (getInfo infos b).recursiveCall with
    | some idx => findRecLoop f fuel infos rest ((b, idx) :: diags)
    | none =>
      let r := forwardSuccs infos (succsOf f b)
      findRecLoop f fuel r.1 (r.2 ++ rest) diags

/-- `findRecursiveCallsAndDiagnose`: marks the entry block reachable, walks
forward, emits one diagnostic per reached recursive call, and returns
whether at least one was found. -/
def findRecursiveCallsAndDiagnose (f : SILFunction) (infos : List BlockInfo) :
    Bool × List (Nat × Nat) :=
  let e := getInfo infos 0
  let infos0 := infos.set 0 { e with reachableFromEntry := true }
  let diags := findRecLoop f (f.blocks.length + 1) infos0 [0] []
  (!diags.isEmpty, diags)

/-- `InfiniteRecursionAnalysis::analyzeAndDiagnose`: if the entry block can
reach a return the attempt is inconclusive; otherwise the forward pass
locates and reports the recursive calls. -/
def analyzeAndDiagnose (f : SILFunction) (inv : Invariants) :
    Bool × List (Nat × Nat) :=
  let r := isEntryReachableFromReturn f inv
  if r.2 then (false, []) else findRecursiveCallsAndDiagnose f r.1

/-- `SmallSetVector::insert`: appends `x` unless already present, keeping
insertion order and uniqueness. -/
def insertInv (l : List Invariants) (x : Invariants) : List Invariants :=
  if x ∈ l then l else l ++ [x]

/-- The instruction loop of `collectInvariantsToTry` over one block: for
every full apply site that is a recursive call, record that recursive calls
were found and insert its forwarding-derived invariants; as soon as the set
holds at least 4 entries, exit early (first component true). -/
def collectInsts (pf pm : Nat) :
    List Inst → List Invariants → Bool → Bool × List Invariants × Bool
  | [], acc, found => (false, acc, found)
  | inst :: rest, acc, found =>
    match inst with
    | .applyI _ callee args _ =>
      if isRecursiveCall ⟨pf, pm, callee⟩ then
        let acc1 := insertInv acc (Invariants.fromForwardingArguments args)
        if 4 ≤ acc1.length then (true, acc1, true)
        else collectInsts pf pm rest acc1 true
      else collectInsts pf pm rest acc found
    | _ => collectInsts pf pm rest acc found

/-- The block loop of `collectInvariantsToTry`. -/
def collectBlocks (pf pm : Nat) {n : Nat} :
    List (BasicBlock n) → List Invariants → Bool → Bool × List Invariants
  | [], acc, found => (found, acc)
  | b :: rest, acc, found =>
    let r := collectInsts pf pm b.insts acc found
    if r.1 then (true, r.2.1)
    else collectBlocks pf pm rest r.2.1 r.2.2

/-- `collectInvariantsToTry`: starts from the no-invariants candidate, scans
the function for recursive calls, and returns whether at least one was
found, together with the ordered candidate set. -/
def collectInvariantsToTry (f : SILFunction) : Bool × List Invariants :=
  collectBlocks f.id f.moduleId f.blocks
    (insertInv [] Invariants.noInvariants) false

/-- The candidate loop of `DiagnoseInfiniteRecursion::run`: each candidate is
tried plainly and then with invariant memory, stopping at the first attempt
that reports. Returns the emitted diagnostics and the number of full
analysis attempts performed. -/
def tryInvariants (f : SILFunction) :
    List Invariants → List (Nat × Nat) × Nat
  | [] => ([], 0)
  | inv :: rest =>
    let r1 := analyzeAndDiagnose f inv
    if r1.1 then (r1.2, 1)
    else
      let r2 := analyzeAndDiagnose f inv.withInvariantMemory
      if r2.1 then (r2.2, 2)
      else
        let r := tryInvariants f rest
        (r.1, 2 + r.2)

/-- `DiagnoseInfiniteRecursion::run`: skip deserialized functions, skip
functions without recursive calls, otherwise try the collected candidates.
Returns the emitted diagnostics and the number of full analysis attempts. -/
def run (f : SILFunction) : List (Nat × Nat) × Nat :=
  if f.wasDeserializedCanonical then ([], 0)
  else
    let c := collectInvariantsToTry f
    if c.1 then tryInvariants f c.2 else ([], 0)

/-- A fingerprint: a pair of 64-bit words (`Fingerprint::Core`, a
`std::pair` of `uint64_t`). The 64-bit range is a hypothesis of the
round-trip theorem, as in the C++ storage type. -/
structure Fingerprint where
  first : Nat
  second : Nat
deriving DecidableEq, Repr

/-- `Fingerprint::DIGEST_LENGTH`. -/
def digestLength : Nat := 32

/-- The lowercase hex digit character for a nibble, as printed by
`llvm::format_hex_no_prefix` with `Upper = false`. -/
def hexChar (d : Nat) : Char :=
  if d < 10 then Char.ofNat (48 + d) else Char.ofNat (87 + d)

/-- The `w` base-16 digits of `v`, most significant first, zero padded. -/
def hexDigitsBE : Nat → Nat → List Nat
  | 0, _ => []
  | w + 1, v => hexDigitsBE w (v / 16) ++ [v % 16]

/-- `llvm::format_hex_no_prefix(v, 16)` for a 64-bit value: the 16 lowercase
hex digits of `v`, zero padded. -/
def formatHex16 (v : Nat) : List Char :=
  (hexDigitsBE 16 v).map hexChar

/-- `Fingerprint::getRawValue()`: the 16 hex digits of `core.first` followed
by the 16 hex digits of `core.second`. -/
def Fingerprint.getRawValue (fp : Fingerprint) : List Char :=
  formatHex16 fp.first ++ formatHex16 fp.second

/-- The numeric value of a lowercase or uppercase hex digit character. -/
def hexDigitVal? (c : Char) : Option Nat :=
  if 48 ≤ c.toNat ∧ c.toNat ≤ 57 then some (c.toNat - 48)
  else if 97 ≤ c.toNat ∧ c.toNat ≤ 102 then some (c.toNat - 87)
  else if 65 ≤ c.toNat ∧ c.toNat ≤ 70 then some (c.toNat - 55)
  else none

/-- Hex extraction of `std::istringstream >> std::hex >> uint64`, for the
digit strings this codec feeds it: accumulates hex digits left to right and
stops at the first non-digit. (Stream error states and whitespace skipping
are immaterial here: `fromString` validates the parse by re-serializing.) -/
def parseHexAcc : List Char → Nat → Nat
  | [], acc => acc
  | c :: rest, acc =>
    match hexDigitVal? c with
    | some d => parseHexAcc rest (acc * 16 + d)
    | none => acc

/-- Parse a hex string into a number, starting from 0. -/
def parseHex (s : List Char) : Nat := parseHexAcc s 0

/-- `Fingerprint::fromString`: parses the first half
(`value.drop_back(DIGEST_LENGTH/2)`) and the second half
(`value.drop_front(DIGEST_LENGTH/2)`) as hex, then accepts only if
re-serializing reproduces the input exactly. -/
def Fingerprint.fromString (value : List Char) : Option Fingerprint :=
  let first := parseHex (value.take (value.length - digestLength / 2))
  let second := parseHex (value.drop (digestLength / 2))
  let fp : Fingerprint := ⟨first, second⟩
  if value = fp.getRawValue then some fp else none

/-- An empty use-def graph, for example functions whose terminator
conditions are not inspected. -/
abbrev exampleGraph0 : ValueGraph := ⟨0, fun v => v.elim0⟩

/-- A return-like terminator with no successors. -/
abbrev exampleRetTerm : Term 0 :=
  { kind := .otherTermKind, cond := none, succs := [],
    functionExiting := true, programTerminating := false }

/-- A block holding a memory-writing instruction followed by a self-recursive
call of function 7 (argument-free, hence argument-forwarding consistent with
any assumption), ending in a return. -/
abbrev blockWriteThenCall : BasicBlock 0 :=
  { insts := [.otherI true, .applyI false (.direct 7) [] false],
    term := exampleRetTerm }

/-- A block holding a program-termination-point call followed by a
self-recursive call of function 7, ending in a return. -/
abbrev blockTermPointThenCall : BasicBlock 0 :=
  { insts := [.applyI true .otherCallee [] false,
              .applyI false (.direct 7) [] false],
    term := exampleRetTerm }

/-- A function that unconditionally calls itself and ends in a return. -/
abbrev exampleFunA : SILFunction :=
  { id := 7, moduleId := 1, wasDeserializedCanonical := false,
    graph := exampleGraph0,
    blocks := [ { insts := [.applyI false (.direct 7) [] false],
                  term := exampleRetTerm } ] }

/-- A function containing a call that is not self-recursive, and a return. -/
abbrev exampleFunNoRec : SILFunction :=
  { id := 7, moduleId := 1, wasDeserializedCanonical := false,
    graph := exampleGraph0,
    blocks := [ { insts := [.applyI false (.direct 8) [] true, .otherI true],
                  term := exampleRetTerm } ] }

/-- A full apply site at which the apply-specific checks of the block scan
stop: a program-termination-point call, or a recursive call whose argument
forwarding is consistent with the assumption. -/
def isNotableApply (pf pm : Nat) (inv : Invariants) : Inst → Bool
  | .applyI terminationPoint callee args _ =>
    terminationPoint
      || (isRecursiveCall ⟨pf, pm, callee⟩ && inv.hasInvariantArguments args)
  | _ => false

/-- An instruction at which the block scan of the `BlockInfo` constructor
does not stop: not a notable apply, and not a memory write under an assumed
memory invariance. -/
def continuesScan (pf pm : Nat) (inv : Invariants) (i : Inst) : Bool :=
  !isNotableApply pf pm inv i && !(inv.isMemoryInvariant && mayWriteToMemory i)

/-- An instruction that is a full apply site classified as a self-recursive
call of the enclosing function, as tested by the scan of
`collectInvariantsToTry`. -/
def isRecApplyInst (pf pm : Nat) : Inst → Bool
  | .applyI _ callee _ _ => isRecursiveCall ⟨pf, pm, callee⟩
  | _ => false

/-!
Theorems. Each claim of the specification is settled by one theorem below,
with a witness theorem instantiating it when it carries hypotheses.
-/

theorem scanInsts_cons_continue (pf pm : Nat) (inv : Invariants) (i : Inst)
    (rest : List Inst) (idx : Nat) (h : continuesScan pf pm inv i = true) :
    scanInsts pf pm inv (i :: rest) idx = scanInsts pf pm inv rest (idx + 1) := by
  cases i with
  | applyI tp c args w =>
    simp only [continuesScan, isNotableApply, mayWriteToMemory, Bool.and_eq_true,
      Bool.not_eq_true', Bool.or_eq_false_iff, Bool.and_eq_false_iff] at h
    obtain ⟨⟨h1, h2⟩, h3⟩ := h
    rcases h2 with h2 | h2 <;> rcases h3 with h3 | h3 <;>
      simp [scanInsts, h1, h2, h3, mayWriteToMemory]
  | loadI => simp [scanInsts, mayWriteToMemory]
  | beginAccessI => simp [scanInsts, mayWriteToMemory]
  | endAccessI => simp [scanInsts, mayWriteToMemory]
  | otherI w =>
    simp only [continuesScan, isNotableApply, mayWriteToMemory, Bool.not_false,
      Bool.true_and, Bool.not_eq_true'] at h
    simp [scanInsts, mayWriteToMemory, h]

theorem scanInsts_append_continue (pf pm : Nat) (inv : Invariants)
    (pre tail : List Inst) (hpre : ∀ i ∈ pre, continuesScan pf pm inv i = true) :
    ∀ idx, scanInsts pf pm inv (pre ++ tail) idx
      = scanInsts pf pm inv tail (idx + pre.length) := by
  induction pre with
  | nil => intro idx; simp
  | cons i rest ih =>
    intro idx
    have hi : continuesScan pf pm inv i = true := hpre i (by simp)
    have hrest : ∀ j ∈ rest, continuesScan pf pm inv j = true :=
      fun j hj => hpre j (by simp [hj])
    rw [List.cons_append, scanInsts_cons_continue pf pm inv i _ idx hi, ih hrest]
    congr 1
    simp [List.length_cons]
    omega

theorem walkOperands_sufficient {n : Nat}
    (step : Fin n → Finset (Fin n) → Option (Bool × Finset (Fin n)))
    (fuel : Nat)
    (hstep : ∀ (v : Fin n) (vis : Finset (Fin n)), n + 1 - vis.card ≤ fuel →
      ∃ r vis2, step v vis = some (r, vis2) ∧ vis ⊆ vis2) :
    ∀ (ops : List (Fin n)) (visited : Finset (Fin n)),
      n + 1 - visited.card ≤ fuel →
      ∃ r vis2, walkOperands step ops visited = some (r, vis2) ∧ visited ⊆ vis2 := by
  intro ops
  induction ops with
  | nil =>
    intro visited h
    exact ⟨true, visited, rfl, Finset.Subset.refl _⟩
  | cons op rest ihrest =>
    intro visited h
    obtain ⟨r, vis1, heq, hsub⟩ := hstep op visited h
    have h1 : n + 1 - vis1.card ≤ fuel :=
      le_trans (Nat.sub_le_sub_left (Finset.card_le_card hsub) (n + 1)) h
    cases r with
    | false => exact ⟨false, vis1, by simp [walkOperands, heq], hsub⟩
    | true =>
      obtain ⟨r2, vis2, heq2, hsub2⟩ := ihrest vis1 h1
      exact ⟨r2, vis2, by simp [walkOperands, heq, heq2],
        Finset.Subset.trans hsub hsub2⟩

theorem walkValue_sufficient (g : ValueGraph) (inv : Invariants) :
    ∀ (fuel : Nat) (v : Fin g.n) (visited : Finset (Fin g.n)),
      g.n + 1 - visited.card ≤ fuel →
      ∃ r vis2, walkValue g inv fuel v visited = some (r, vis2) ∧ visited ⊆ vis2 := by
  intro fuel
  induction fuel using Nat.strong_induction_on with
  | _ fuel ih =>
    intro v visited hfuel
    match fuel with
    | 0 =>
      exfalso
      have hcard : visited.card ≤ g.n := by
        have := Finset.card_le_univ visited
        simpa using this
      omega
    | fuel + 1 =>
      by_cases hv : v ∈ visited
      · exact ⟨true, visited, by rw [walkValue]; simp [hv], Finset.Subset.refl _⟩
      · have hne : visited ≠ Finset.univ := by
          intro h
          exact hv (h ▸ Finset.mem_univ v)
        have hcardlt : visited.card < g.n := by
          have := Finset.card_lt_card (Finset.ssubset_univ_iff.mpr hne)
          simpa using this
        have hins : (insert v visited).card = visited.card + 1 :=
          Finset.card_insert_of_not_mem hv
        have hfuel1 : g.n + 1 - (insert v visited).card ≤ fuel := by
          rw [hins]; omega
        have hstep : ∀ (v' : Fin g.n) (vis : Finset (Fin g.n)),
            g.n + 1 - vis.card ≤ fuel →
            ∃ r vis2, walkValue g inv fuel v' vis = some (r, vis2) ∧ vis ⊆ vis2 :=
          fun v' vis h => ih fuel (Nat.lt_succ_self fuel) v' vis h
        rcases hk : g.kind v with ⟨mayRead, ops⟩ | argIdx | _
        · by_cases hread : (!inv.isMemoryInvariant && mayRead) = true
          · exact ⟨false, insert v visited, by rw [walkValue]; simp [hv, hk, hread],
              Finset.subset_insert _ _⟩
          · obtain ⟨r, vis2, heq, hsub⟩ :=
              walkOperands_sufficient (walkValue g inv fuel) fuel hstep ops
                (insert v visited) hfuel1
            refine ⟨r, vis2, ?_, Finset.Subset.trans (Finset.subset_insert _ _) hsub⟩
            rw [walkValue]
            simp only [hv, if_false, hk, Bool.not_eq_true] at *
            simp [hread, heq]
        · exact ⟨inv.isArgumentInvariant argIdx, insert v visited,
            by rw [walkValue]; simp [hv, hk], Finset.subset_insert _ _⟩
        · exact ⟨false, insert v visited,
            by rw [walkValue]; simp [hv, hk], Finset.subset_insert _ _⟩


/-- C1: for a call site whose callee requires class-method or witness-method
style dynamic dispatch, the call classifier returns true only if the set of
possible callees is closed and statically enumerable for the callee's
declaration, the declared method has no further override point, and the
single resolved target equals the enclosing function; whenever one of these
fails the classifier answers false (here stated as an equivalence, whose
forward direction is the claim). -/
theorem isRecursiveCall_dynamic_dispatch_sound (s : ApplySite)
    (h : isClassOrWitnessMethodCallee s.callee = true) :
    isRecursiveCall s = true ↔
      (calleesClosedAndEnumerable s = true ∧ hasNoFurtherOverride s = true
        ∧ resolvedTarget s = some s.parentFunc) := by
  obtain ⟨pf, pm, callee⟩ := s
  cases callee with
  | classMethod classDeclModule calleesKnowable methodOverridden targetMethod =>
    cases classDeclModule with
    | none =>
      cases calleesKnowable <;> cases methodOverridden <;>
        simp [isRecursiveCall, calleesClosedAndEnumerable, hasNoFurtherOverride,
          resolvedTarget, Option.any]
    | some m =>
      by_cases hm : m = pm
      · subst hm
        cases calleesKnowable <;> cases methodOverridden <;>
          simp [isRecursiveCall, calleesClosedAndEnumerable, hasNoFurtherOverride,
            resolvedTarget, Option.any]
      · simp [isRecursiveCall, calleesClosedAndEnumerable, hasNoFurtherOverride,
          resolvedTarget, Option.any, hm]
  | witnessMethod witnessLookup =>
    cases witnessLookup with
    | none =>
      simp [isRecursiveCall, calleesClosedAndEnumerable, hasNoFurtherOverride,
        resolvedTarget]
    | some t =>
      simp [isRecursiveCall, calleesClosedAndEnumerable, hasNoFurtherOverride,
        resolvedTarget]
  | direct fn => simp [isClassOrWitnessMethodCallee] at h
  | superMethod => simp [isClassOrWitnessMethodCallee] at h
  | objcSuperMethod => simp [isClassOrWitnessMethodCallee] at h
  | objcMethod => simp [isClassOrWitnessMethodCallee] at h
  | otherCallee => simp [isClassOrWitnessMethodCallee] at h

/-- Witness for C1: a class-method call site with a statically knowable,
non-overridden method resolving to the enclosing function is classified as
recursive, and the three conditions hold there. -/
theorem isRecursiveCall_dynamic_dispatch_sound_witness :
    isClassOrWitnessMethodCallee
        (ApplySite.mk 7 5 (.classMethod (some 5) true false (some 7))).callee = true
    ∧ (isRecursiveCall ⟨7, 5, .classMethod (some 5) true false (some 7)⟩ = true ↔
        (calleesClosedAndEnumerable ⟨7, 5, .classMethod (some 5) true false (some 7)⟩ = true
          ∧ hasNoFurtherOverride ⟨7, 5, .classMethod (some 5) true false (some 7)⟩ = true
          ∧ resolvedTarget ⟨7, 5, .classMethod (some 5) true false (some 7)⟩ = some 7)) :=
  ⟨by decide,
   isRecursiveCall_dynamic_dispatch_sound ⟨7, 5, .classMethod (some 5) true false (some 7)⟩
     (by decide)⟩

/-- C2 counterexample: the claim says every argument position `i ≥ 16` is
never treated as invariant, but the code's bound is `argIdx <= maxArgIndex`
with `maxArgIndex = 16`, so position 16 is tracked: forwarding the first 17
arguments makes position 16 invariant. -/
theorem argumentInvariant_position16_counterexample :
    (Invariants.fromForwardingArguments
        ((List.range 17).map Arg.fwd)).isArgumentInvariant 16 = true := by decide

theorem fromForwardingArguments_bitMask_lt (args : List Arg) :
    (Invariants.fromForwardingArguments args).bitMask < 2 ^ 18 := by
  suffices h : ∀ (l : List (Nat × Arg)) (mask : Nat), mask < 2 ^ 18 →
      l.foldl
        (fun mask p =>
          if p.1 ≤ Invariants.maxArgIndex && strippedEqualsIncoming p.2 p.1 then
            mask ||| (1 <<< (p.1 + Invariants.firstArgBit))
          else mask)
        mask < 2 ^ 18 by
    exact h _ 0 (by norm_num)
  intro l
  induction l with
  | nil => intro mask h; simpa using h
  | cons p rest ih =>
    intro mask h
    simp only [List.foldl_cons]
    by_cases hp : (p.1 ≤ Invariants.maxArgIndex && strippedEqualsIncoming p.2 p.1) = true
    · rw [if_pos hp]
      refine ih _ (Nat.or_lt_two_pow h ?_)
      have hle : p.1 ≤ 16 := by
        have := hp
        simp only [Bool.and_eq_true, decide_eq_true_eq, Invariants.maxArgIndex] at this
        exact this.1
      rw [Nat.one_shiftLeft]
      calc 2 ^ (p.1 + Invariants.firstArgBit) ≤ 2 ^ 17 := by
            apply Nat.pow_le_pow_right (by norm_num)
            simp only [Invariants.firstArgBit]
            omega
        _ < 2 ^ 18 := by norm_num
    · rw [if_neg hp]; exact ih _ h

/-- C2 as amended: positions strictly beyond index 16 (the code tracks
argument positions 0 through 16) are never treated as invariant:
`isArgumentInvariant` answers false for every assumption, and
`fromForwardingArguments` never sets the invariance bit of such a
position. -/
theorem argumentInvariant_beyond_cap_false (inv : Invariants) (args : List Arg)
    (i : Nat) (h : 17 ≤ i) :
    inv.isArgumentInvariant i = false
    ∧ (Invariants.fromForwardingArguments args).isBitSet
        (i + Invariants.firstArgBit) = false := by
  constructor
  · simp only [Invariants.isArgumentInvariant, Invariants.maxArgIndex,
      Bool.and_eq_false_iff, decide_eq_false_iff_not]
    left; omega
  · have hlt : (Invariants.fromForwardingArguments args).bitMask < 2 ^ 18 :=
      fromForwardingArguments_bitMask_lt args
    have hbit : (Invariants.fromForwardingArguments args).bitMask.testBit
        (i + Invariants.firstArgBit) = false := by
      apply Nat.testBit_lt_two_pow
      calc (Invariants.fromForwardingArguments args).bitMask < 2 ^ 18 := hlt
        _ ≤ 2 ^ (i + Invariants.firstArgBit) := by
            apply Nat.pow_le_pow_right (by norm_num)
            simp only [Invariants.firstArgBit]
            omega
    simp only [Invariants.isBitSet, Nat.one_shiftLeft, ne_eq, bne_iff_ne]
    simp only [Nat.and_two_pow, hbit, Bool.toNat_false, Nat.zero_mul,
      ne_eq, not_not]
    decide

/-- Witness for C2 as amended: at position 17, even when all of the first 18
arguments are forwarded, the position is not invariant and its bit is not
set. -/
theorem argumentInvariant_beyond_cap_false_witness :
    17 ≤ 17
    ∧ ((Invariants.fromForwardingArguments
          ((List.range 18).map Arg.fwd)).isArgumentInvariant 17 = false
      ∧ (Invariants.fromForwardingArguments
          ((List.range 18).map Arg.fwd)).isBitSet (17 + Invariants.firstArgBit)
          = false) :=
  ⟨le_refl 17,
   argumentInvariant_beyond_cap_false
     (Invariants.fromForwardingArguments ((List.range 18).map Arg.fwd))
     ((List.range 18).map Arg.fwd) 17 (le_refl 17)⟩

/-- C6: when the in-order instruction scan of a block reaches a call to a
known program-termination point (no earlier instruction having stopped the
scan), the block summary is short-circuited to nothing notable: its
recursive-call-site stays `none` and its reaches-return flag stays false,
whatever instructions follow, whatever the block's terminator is, and
whatever the active invariant assumption is. -/
theorem blockSummary_termination_point_short_circuits (pf pm : Nat)
    (inv : Invariants) (g : ValueGraph) (b : BasicBlock g.n)
    (pre post : List Inst) (callee : Callee) (args : List Arg) (w : Bool)
    (hb : b.insts = pre ++ Inst.applyI true callee args w :: post)
    (hpre : ∀ i ∈ pre, continuesScan pf pm inv i = true) :
    (mkBlockInfo pf pm inv g b).recursiveCall = none
    ∧ (mkBlockInfo pf pm inv g b).reachesReturn = false := by
  have hscan : scanInsts pf pm inv b.insts 0 = .termPoint := by
    rw [hb, scanInsts_append_continue pf pm inv pre _ hpre 0]
    simp [scanInsts]
  simp [mkBlockInfo, hscan]

/-- Witness for C6: a block whose first instruction is a
program-termination-point call followed by a self-recursive call yields a
summary with no recursive call and no reaches-return, under the
no-invariants assumption. -/
theorem blockSummary_termination_point_short_circuits_witness :
    (mkBlockInfo 7 1 Invariants.noInvariants exampleGraph0
        blockTermPointThenCall).recursiveCall = none
    ∧ (mkBlockInfo 7 1 Invariants.noInvariants exampleGraph0
        blockTermPointThenCall).reachesReturn = false :=
  blockSummary_termination_point_short_circuits 7 1 Invariants.noInvariants
    exampleGraph0 blockTermPointThenCall []
    [Inst.applyI false (Callee.direct 7) [] false] Callee.otherCallee [] false
    rfl (by simp)

/-- C3 counterexample: under a memory-invariant assumption, a block holding
a memory-writing instruction followed by a self-recursive call consistent
with the assumption (and containing no program-termination-point call at
all) gets a summary with `recursiveCall = none` and `reachesReturn = true`:
the memory-write rule fires first, even though the claim requires the
recursive-call-site to be set to that call (index 1) and the memory-write
rule to be inapplicable when a recursive call is in the block. -/
theorem blockSummary_write_before_call_counterexample :
    Invariants.noInvariants.withInvariantMemory.isMemoryInvariant = true
    ∧ blockWriteThenCall.insts
        = [Inst.otherI true, Inst.applyI false (Callee.direct 7) [] false]
    ∧ isRecursiveCall ⟨7, 1, Callee.direct 7⟩ = true
    ∧ Invariants.noInvariants.withInvariantMemory.hasInvariantArguments [] = true
    ∧ (mkBlockInfo 7 1 Invariants.noInvariants.withInvariantMemory exampleGraph0
        blockWriteThenCall).recursiveCall = none
    ∧ (mkBlockInfo 7 1 Invariants.noInvariants.withInvariantMemory exampleGraph0
        blockWriteThenCall).reachesReturn = true := by
  refine ⟨by decide, rfl, by decide, by decide, ?_, ?_⟩ <;> decide

/-- C3 as amended: under a memory-invariant assumption the block scan stops
at the first notable instruction in order. If the first instruction at which
the scan stops is a self-recursive call consistent with the assumption (no
preceding termination-point call, recursive call, or memory write), the
summary's recursive-call-site is set to its index and reaches-return stays
false, whatever follows it. The memory-write rule applies at the first
memory-writing instruction only when no termination-point call or qualifying
recursive call precedes it or coincides with it. -/
theorem blockSummary_scan_order (pf pm : Nat) (inv : Invariants)
    (g : ValueGraph) (b : BasicBlock g.n) (pre post : List Inst) (x : Inst)
    (hmem : inv.isMemoryInvariant = true)
    (hb : b.insts = pre ++ x :: post)
    (hpre : ∀ i ∈ pre, continuesScan pf pm inv i = true) :
    ((∃ callee args w, x = Inst.applyI false callee args w
        ∧ isRecursiveCall ⟨pf, pm, callee⟩ = true
        ∧ inv.hasInvariantArguments args = true) →
      (mkBlockInfo pf pm inv g b).recursiveCall = some pre.length
      ∧ (mkBlockInfo pf pm inv g b).reachesReturn = false)
    ∧ ((isNotableApply pf pm inv x = false ∧ mayWriteToMemory x = true) →
      (mkBlockInfo pf pm inv g b).recursiveCall = none
      ∧ (mkBlockInfo pf pm inv g b).reachesReturn = true) := by
  have hrest : scanInsts pf pm inv b.insts 0
      = scanInsts pf pm inv (x :: post) pre.length := by
    rw [hb, scanInsts_append_continue pf pm inv pre _ hpre 0]
    simp
  constructor
  · rintro ⟨callee, args, w, rfl, hrec, hargs⟩
    have hscan : scanInsts pf pm inv b.insts 0 = .recCall pre.length := by
      rw [hrest]
      simp [scanInsts, hrec, hargs]
    simp [mkBlockInfo, hscan]
  · rintro ⟨hnot, hwrite⟩
    have hscan : scanInsts pf pm inv b.insts 0 = .memWrite := by
      rw [hrest]
      cases x with
      | applyI tp c args w =>
        simp only [mayWriteToMemory] at hwrite
        simp only [isNotableApply, Bool.or_eq_false_iff,
          Bool.and_eq_false_iff] at hnot
        obtain ⟨h1, h2⟩ := hnot
        rcases h2 with h2 | h2 <;>
          simp [scanInsts, h1, h2, hmem, hwrite, mayWriteToMemory]
      | loadI => simp [mayWriteToMemory] at hwrite
      | beginAccessI => simp [mayWriteToMemory] at hwrite
      | endAccessI => simp [mayWriteToMemory] at hwrite
      | otherI w =>
        simp only [mayWriteToMemory] at hwrite
        simp [scanInsts, hmem, mayWriteToMemory, hwrite]
    simp [mkBlockInfo, hscan]

/-- Witness for C3 as amended: with memory assumed invariant, a block whose
first instruction is a self-recursive call gets its recursive-call-site set
to index 0; and a block whose first instruction writes memory (with the
recursive call only second) gets reaches-return instead. -/
theorem blockSummary_scan_order_witness :
    ((mkBlockInfo 7 1 Invariants.noInvariants.withInvariantMemory exampleGraph0
        { insts := [Inst.applyI false (Callee.direct 7) [] false, Inst.otherI true],
          term := exampleRetTerm }).recursiveCall = some 0
      ∧ (mkBlockInfo 7 1 Invariants.noInvariants.withInvariantMemory exampleGraph0
        { insts := [Inst.applyI false (Callee.direct 7) [] false, Inst.otherI true],
          term := exampleRetTerm }).reachesReturn = false)
    ∧ ((mkBlockInfo 7 1 Invariants.noInvariants.withInvariantMemory exampleGraph0
        blockWriteThenCall).recursiveCall = none
      ∧ (mkBlockInfo 7 1 Invariants.noInvariants.withInvariantMemory exampleGraph0
        blockWriteThenCall).reachesReturn = true) :=
  ⟨(blockSummary_scan_order 7 1 Invariants.noInvariants.withInvariantMemory
      exampleGraph0
      { insts := [Inst.applyI false (Callee.direct 7) [] false, Inst.otherI true],
        term := exampleRetTerm }
      [] [Inst.otherI true] (Inst.applyI false (Callee.direct 7) [] false)
      (by decide) rfl (by simp)).1
    ⟨Callee.direct 7, [], false, rfl, by decide, by decide⟩,
   (blockSummary_scan_order 7 1 Invariants.noInvariants.withInvariantMemory
      exampleGraph0 blockWriteThenCall
      [] [Inst.applyI false (Callee.direct 7) [] false] (Inst.otherI true)
      (by decide) rfl (by simp)).2
    ⟨by decide, by decide⟩⟩

/-- C9: the use-def invariance walker terminates for every value, every
assumption and every visited set, even when the value's defining chain
cycles back on itself: fuel `g.n + 1 - visited.card` (in particular the
`g.n + 1` used by `isInvariantValue`) never runs out; and a node already in
the invocation's visited set is treated as invariant, the walker answering
true for it immediately without recursing. -/
theorem useDefWalker_terminates (g : ValueGraph) (inv : Invariants) :
    (∀ (v : Fin g.n) (visited : Finset (Fin g.n)) (fuel : Nat),
      g.n + 1 - visited.card ≤ fuel →
      (walkValue g inv fuel v visited).isSome = true)
    ∧ (∀ v : Fin g.n, (walkValue g inv (g.n + 1) v ∅).isSome = true)
    ∧ (∀ (v : Fin g.n) (visited : Finset (Fin g.n)) (fuel : Nat),
      v ∈ visited → walkValue g inv (fuel + 1) v visited = some (true, visited)) := by
  refine ⟨?_, ?_, ?_⟩
  · intro v visited fuel h
    obtain ⟨r, vis2, heq, -⟩ := walkValue_sufficient g inv fuel v visited h
    rw [heq]; rfl
  · intro v
    obtain ⟨r, vis2, heq, -⟩ :=
      walkValue_sufficient g inv (g.n + 1) v ∅ (by simp)
    rw [heq]; rfl
  · intro v visited fuel hv
    rw [walkValue]
    simp [hv]

/-- Witness for C9: on the two-node cyclic graph the walker completes from
an empty visited set (with the definitional fuel), and answers true
immediately for a node already visited. -/
theorem useDefWalker_terminates_witness :
    (walkValue cycleGraph Invariants.noInvariants (cycleGraph.n + 1) 0 ∅).isSome
        = true
    ∧ walkValue cycleGraph Invariants.noInvariants 1 0 {0} = some (true, {0}) :=
  ⟨(useDefWalker_terminates cycleGraph Invariants.noInvariants).2.1 0,
   (useDefWalker_terminates cycleGraph Invariants.noInvariants).2.2 0 {0} 0
     (by decide)⟩

theorem getInfo_set_self (infos : List BlockInfo) (i : Nat) (x : BlockInfo)
    (h : i < infos.length) : getInfo (infos.set i x) i = x := by
  simp [getInfo, List.getElem?_set_self h]

theorem getInfo_set_ne (infos : List BlockInfo) (i j : Nat) (x : BlockInfo)
    (h : i ≠ j) : getInfo (infos.set i x) j = getInfo infos j := by
  simp [getInfo, List.getElem?_set_ne h]

/-- C4: when the backward propagation processes one successor edge of a
predecessor block P that has no recursive-call-site and does not yet reach a
return, P's remaining-successor counter is decremented, and: if P's
invariant-condition flag is set, P acquires reaches-return (and is pushed)
exactly when the counter has reached 0, i.e. only after every one of its
successor edges has been accounted for; if the flag is clear, P acquires
reaches-return (and is pushed) immediately, from this single processed
successor. -/
theorem backwardPropagation_pred_update (infos : List BlockInfo) (p : Nat)
    (hp : p < infos.length)
    (hrec : (getInfo infos p).recursiveCall = none)
    (hret : (getInfo infos p).reachesReturn = false) :
    ((getInfo infos p).hasInvariantCondition = true →
      (getInfo (updatePred infos p).1 p).numSuccsNotReachingReturn
          = (getInfo infos p).numSuccsNotReachingReturn - 1
      ∧ ((getInfo (updatePred infos p).1 p).reachesReturn = true ↔
          (getInfo infos p).numSuccsNotReachingReturn - 1 = 0)
      ∧ ((updatePred infos p).2 = true ↔
          (getInfo infos p).numSuccsNotReachingReturn - 1 = 0))
    ∧ ((getInfo infos p).hasInvariantCondition = false →
      (getInfo (updatePred infos p).1 p).numSuccsNotReachingReturn
          = (getInfo infos p).numSuccsNotReachingReturn - 1
      ∧ (getInfo (updatePred infos p).1 p).reachesReturn = true
      ∧ (updatePred infos p).2 = true) := by
  constructor
  · intro hinv
    rcases Nat.eq_zero_or_pos ((getInfo infos p).numSuccsNotReachingReturn - 1)
      with h0 | hpos
    · simp [updatePred, hret, hrec, hinv, h0, getInfo_set_self, hp]
    · have hgt : ((getInfo infos p).numSuccsNotReachingReturn - 1 > 0) := hpos
      simp [updatePred, hret, hrec, hinv, hgt, getInfo_set_self, hp]
      omega
  · intro hinv
    simp [updatePred, hret, hrec, hinv, getInfo_set_self, hp]

/-- Witness for C4: a single invariant-condition block with counter 2 is
decremented without acquiring reaches-return; one without the flag acquires
it at once. -/
theorem backwardPropagation_pred_update_witness :
    ((getInfo (updatePred [BlockInfo.mk none 2 true false false] 0).1
        0).numSuccsNotReachingReturn
      = (getInfo [BlockInfo.mk none 2 true false false] 0).numSuccsNotReachingReturn - 1
    ∧ ((getInfo (updatePred [BlockInfo.mk none 2 true false false] 0).1
          0).reachesReturn = true ↔
        (getInfo [BlockInfo.mk none 2 true false false]
          0).numSuccsNotReachingReturn - 1 = 0)
    ∧ ((updatePred [BlockInfo.mk none 2 true false false] 0).2 = true ↔
        (getInfo [BlockInfo.mk none 2 true false false]
          0).numSuccsNotReachingReturn - 1 = 0))
    ∧ ((getInfo (updatePred [BlockInfo.mk none 2 false false false] 0).1
          0).numSuccsNotReachingReturn
        = (getInfo [BlockInfo.mk none 2 false false false]
            0).numSuccsNotReachingReturn - 1
      ∧ (getInfo (updatePred [BlockInfo.mk none 2 false false false] 0).1
          0).reachesReturn = true
      ∧ (updatePred [BlockInfo.mk none 2 false false false] 0).2 = true) :=
  ⟨(backwardPropagation_pred_update [BlockInfo.mk none 2 true false false] 0
      (by decide) (by decide) (by decide)).1 (by decide),
   (backwardPropagation_pred_update [BlockInfo.mk none 2 false false false] 0
      (by decide) (by decide) (by decide)).2 (by decide)⟩

theorem mkBlockInfo_recursiveCall_not_reachesReturn (pf pm : Nat)
    (inv : Invariants) (g : ValueGraph) (b : BasicBlock g.n)
    (h : (mkBlockInfo pf pm inv g b).recursiveCall.isSome = true) :
    (mkBlockInfo pf pm inv g b).reachesReturn = false := by
  rcases hscan : scanInsts pf pm inv b.insts 0 with _ | idx | _ | _
  · simp [mkBlockInfo, hscan] at h
  · simp [mkBlockInfo, hscan]
  · simp [mkBlockInfo, hscan] at h
  · by_cases hterm : (b.term.functionExiting || b.term.programTerminating) = true <;>
      simp [mkBlockInfo, hscan, hterm] at h

theorem updatePred_preserves_recCall (infos : List BlockInfo) (p b : Nat)
    (hb : (getInfo infos b).recursiveCall.isSome = true) :
    getInfo (updatePred infos p).1 b = getInfo infos b
    ∧ ((updatePred infos p).2 = true → p ≠ b) := by
  by_cases hpb : p = b
  · subst hpb
    simp [updatePred, hb]
  · constructor
    · simp only [updatePred]
      split_ifs with h1 h2
      · rfl
      · exact getInfo_set_ne _ _ _ _ hpb
      · exact getInfo_set_ne _ _ _ _ hpb
    · exact fun _ => hpb

theorem processPreds_preserves_recCall (b : Nat) :
    ∀ (preds : List Nat) (infos : List BlockInfo),
      (getInfo infos b).recursiveCall.isSome = true →
      getInfo (processPreds infos preds).1 b = getInfo infos b
      ∧ b ∉ (processPreds infos preds).2 := by
  intro preds
  induction preds with
  | nil => intro infos hb; simp [processPreds]
  | cons p rest ih =>
    intro infos hb
    obtain ⟨heq, hpush⟩ := updatePred_preserves_recCall infos p b hb
    have hb1 : (getInfo (updatePred infos p).1 b).recursiveCall.isSome = true := by
      rw [heq]; exact hb
    obtain ⟨ih1, ih2⟩ := ih (updatePred infos p).1 hb1
    constructor
    · simp only [processPreds]
      rw [ih1, heq]
    · simp only [processPreds]
      by_cases hp2 : (updatePred infos p).2 = true
      · have hpb := hpush hp2
        simp only [hp2, if_true, List.mem_append, List.mem_singleton]
        rintro (h | h)
        · exact ih2 h
        · exact hpb h.symm
      · simp only [Bool.not_eq_true] at hp2
        simp [hp2, ih2]

theorem propagate_preserves_recCall (f : SILFunction) (b : Nat) :
    ∀ (fuel : Nat) (infos : List BlockInfo) (wl : List Nat),
      (getInfo infos b).recursiveCall.isSome = true → b ∉ wl →
      getInfo (propagate f fuel infos wl).1 b = getInfo infos b
      ∧ b ∉ (propagate f fuel infos wl).2 := by
  intro fuel
  induction fuel with
  | zero => intro infos wl hb hwl; exact ⟨rfl, hwl⟩
  | succ fuel ih =>
    intro infos wl hb hwl
    cases wl with
    | nil => simp [propagate]
    | cons w rest =>
      obtain ⟨h1, h2⟩ := processPreds_preserves_recCall b (predsOf f w) infos hb
      have hb1 : (getInfo (processPreds infos (predsOf f w)).1 b).recursiveCall.isSome
          = true := by rw [h1]; exact hb
      have hwl1 : b ∉ (processPreds infos (predsOf f w)).2 ++ rest := by
        intro hmem
        rcases List.mem_append.mp hmem with h | h
        · exact h2 h
        · exact hwl (by simp [h])
      obtain ⟨ihh1, ihh2⟩ := ih (processPreds infos (predsOf f w)).1 _ hb1 hwl1
      constructor
      · simp only [propagate, propStep]
        rw [ihh1, h1]
      · simp only [propagate, propStep]
        exact ihh2

theorem initInfos_recCall_not_reachesReturn (f : SILFunction) (inv : Invariants)
    (b : Nat)
    (h : (getInfo (initInfos f inv) b).recursiveCall.isSome = true) :
    (getInfo (initInfos f inv) b).reachesReturn = false := by
  by_cases hb : b < f.blocks.length
  · have heq : getInfo (initInfos f inv) b
        = mkBlockInfo f.id f.moduleId inv f.graph f.blocks[b] := by
      simp [getInfo, initInfos, List.getElem?_eq_getElem
        (by simpa [initInfos] using hb : b < (f.blocks.map
          (fun blk => mkBlockInfo f.id f.moduleId inv f.graph blk)).length)]
    rw [heq] at h ⊢
    exact mkBlockInfo_recursiveCall_not_reachesReturn _ _ _ _ _ h
  · exfalso
    have hlen : (f.blocks.map
        (fun blk => mkBlockInfo f.id f.moduleId inv f.graph blk)).length ≤ b := by
      simpa using Nat.le_of_not_lt hb
    simp [getInfo, initInfos, List.getElem?_eq_none hlen, defaultBlockInfo] at h

theorem not_mem_initialWorkList (infos : List BlockInfo) (b : Nat)
    (h : (getInfo infos b).reachesReturn = false) : b ∉ initialWorkList infos := by
  simp [initialWorkList, List.mem_reverse, List.mem_filter, h]

/-- C5: throughout the backward propagation (after any number `fuel` of loop
iterations, hence at every intermediate and final state), a block whose
initial summary has a recursive-call-site keeps its whole summary unchanged:
its remaining-successor counter is never decremented, its reaches-return
flag stays false, and it never enters the worklist, so it never propagates a
reaches-return fact to its predecessors. -/
theorem backwardPropagation_recCall_blocks_untouched (f : SILFunction)
    (inv : Invariants) (fuel : Nat) (b : Nat)
    (hb : (getInfo (initInfos f inv) b).recursiveCall.isSome = true) :
    getInfo (propagate f fuel (initInfos f inv)
        (initialWorkList (initInfos f inv))).1 b = getInfo (initInfos f inv) b
    ∧ (getInfo (propagate f fuel (initInfos f inv)
        (initialWorkList (initInfos f inv))).1 b).numSuccsNotReachingReturn
      = (getInfo (initInfos f inv) b).numSuccsNotReachingReturn
    ∧ (getInfo (propagate f fuel (initInfos f inv)
        (initialWorkList (initInfos f inv))).1 b).reachesReturn = false
    ∧ b ∉ (propagate f fuel (initInfos f inv)
        (initialWorkList (initInfos f inv))).2 := by
  have hret := initInfos_recCall_not_reachesReturn f inv b hb
  have hwl := not_mem_initialWorkList (initInfos f inv) b hret
  obtain ⟨h1, h2⟩ := propagate_preserves_recCall f b fuel (initInfos f inv)
    (initialWorkList (initInfos f inv)) hb hwl
  exact ⟨h1, by rw [h1], by rw [h1]; exact hret, h2⟩

/-- Witness for C5: in the function with a single self-calling block, that
block's summary survives the whole propagation untouched and the block never
enters the worklist. -/
theorem backwardPropagation_recCall_blocks_untouched_witness :
    getInfo (propagate exampleFunA 3 (initInfos exampleFunA Invariants.noInvariants)
        (initialWorkList (initInfos exampleFunA Invariants.noInvariants))).1 0
      = getInfo (initInfos exampleFunA Invariants.noInvariants) 0
    ∧ (getInfo (propagate exampleFunA 3
        (initInfos exampleFunA Invariants.noInvariants)
        (initialWorkList (initInfos exampleFunA Invariants.noInvariants))).1
        0).numSuccsNotReachingReturn
      = (getInfo (initInfos exampleFunA Invariants.noInvariants)
          0).numSuccsNotReachingReturn
    ∧ (getInfo (propagate exampleFunA 3
        (initInfos exampleFunA Invariants.noInvariants)
        (initialWorkList (initInfos exampleFunA Invariants.noInvariants))).1
        0).reachesReturn = false
    ∧ 0 ∉ (propagate exampleFunA 3
        (initInfos exampleFunA Invariants.noInvariants)
        (initialWorkList (initInfos exampleFunA Invariants.noInvariants))).2 :=
  backwardPropagation_recCall_blocks_untouched exampleFunA
    Invariants.noInvariants 3 0 (by decide)

theorem insertInv_props (l : List Invariants) (x : Invariants)
    (hn : l.Nodup) :
    (insertInv l x).Nodup
    ∧ (∀ y ∈ l, y ∈ insertInv l x)
    ∧ (insertInv l x).length ≤ l.length + 1 := by
  by_cases hx : x ∈ l
  · simp [insertInv, hx, hn]
  · refine ⟨?_, ?_, ?_⟩
    · simp only [insertInv, hx, if_false]
      rw [List.nodup_append]
      refine ⟨hn, List.nodup_singleton x, fun a ha hb => ?_⟩
      rw [List.mem_singleton] at hb
      rw [hb] at ha
      exact hx ha
    · intro y hy
      simp [insertInv, hx, hy]
    · simp [insertInv, hx]

theorem collectInsts_props (pf pm : Nat) :
    ∀ (insts : List Inst) (acc : List Invariants) (found : Bool),
      acc.Nodup → Invariants.noInvariants ∈ acc → acc.length ≤ 3 →
      (collectInsts pf pm insts acc found).2.1.Nodup
      ∧ Invariants.noInvariants ∈ (collectInsts pf pm insts acc found).2.1
      ∧ (collectInsts pf pm insts acc found).2.1.length ≤ 4
      ∧ ((collectInsts pf pm insts acc found).1 = false →
          (collectInsts pf pm insts acc found).2.1.length ≤ 3) := by
  intro insts
  induction insts with
  | nil =>
    intro acc found hn hm hl
    simp only [collectInsts]
    exact ⟨hn, hm, by omega, fun _ => hl⟩
  | cons inst rest ih =>
    intro acc found hn hm hl
    cases inst with
    | applyI tp callee args w =>
      by_cases hrec : isRecursiveCall ⟨pf, pm, callee⟩ = true
      · obtain ⟨hn1, hm1, hl1⟩ :=
          insertInv_props acc (Invariants.fromForwardingArguments args) hn
        by_cases hfour :
            4 ≤ (insertInv acc (Invariants.fromForwardingArguments args)).length
        · simp only [collectInsts, hrec, if_true, hfour]
          exact ⟨hn1, hm1 _ hm, by omega, by simp⟩
        · have hle3 :
              (insertInv acc (Invariants.fromForwardingArguments args)).length ≤ 3 := by
            omega
          simp only [collectInsts, hrec, if_true, hfour, if_false]
          exact ih _ true hn1 (hm1 _ hm) hle3
      · simp only [Bool.not_eq_true] at hrec
        simp only [collectInsts, hrec, Bool.false_eq_true, if_false]
        exact ih acc found hn hm hl
    | loadI => simpa only [collectInsts] using ih acc found hn hm hl
    | beginAccessI => simpa only [collectInsts] using ih acc found hn hm hl
    | endAccessI => simpa only [collectInsts] using ih acc found hn hm hl
    | otherI w => simpa only [collectInsts] using ih acc found hn hm hl

theorem collectBlocks_props (pf pm : Nat) {n : Nat} :
    ∀ (blocks : List (BasicBlock n)) (acc : List Invariants) (found : Bool),
      acc.Nodup → Invariants.noInvariants ∈ acc → acc.length ≤ 3 →
      (collectBlocks pf pm blocks acc found).2.Nodup
      ∧ Invariants.noInvariants ∈ (collectBlocks pf pm blocks acc found).2
      ∧ (collectBlocks pf pm blocks acc found).2.length ≤ 4 := by
  intro blocks
  induction blocks with
  | nil =>
    intro acc found hn hm hl
    simp only [collectBlocks]
    exact ⟨hn, hm, by omega⟩
  | cons b rest ih =>
    intro acc found hn hm hl
    obtain ⟨hn1, hm1, hl1, hfalse⟩ := collectInsts_props pf pm b.insts acc found hn hm hl
    by_cases h1 : (collectInsts pf pm b.insts acc found).1 = true
    · simp only [collectBlocks, h1, if_true]
      exact ⟨hn1, hm1, hl1⟩
    · simp only [Bool.not_eq_true] at h1
      simp only [collectBlocks, h1, Bool.false_eq_true, if_false]
      exact ih _ _ hn1 hm1 (hfalse h1)

theorem collectInvariantsToTry_props (f : SILFunction) :
    (collectInvariantsToTry f).2.Nodup
    ∧ Invariants.noInvariants ∈ (collectInvariantsToTry f).2
    ∧ (collectInvariantsToTry f).2.length ≤ 4 :=
  collectBlocks_props f.id f.moduleId f.blocks
    (insertInv [] Invariants.noInvariants) false
    (by simp [insertInv]) (by simp [insertInv]) (by simp [insertInv])

theorem tryInvariants_count_le (f : SILFunction) :
    ∀ invs : List Invariants, (tryInvariants f invs).2 ≤ 2 * invs.length := by
  intro invs
  induction invs with
  | nil => simp [tryInvariants]
  | cons inv rest ih =>
    simp only [tryInvariants]
    split_ifs with h1 h2
    · simp only [List.length_cons]; omega
    · simp only [List.length_cons]; omega
    · simp only [List.length_cons]
      omega

/-- C7: the number of full analysis attempts per function never exceeds 8:
the candidate set built by `collectInvariantsToTry` is duplicate-free,
always contains the no-invariants assumption and holds at most 4 entries,
and the driver performs at most two attempts (plain, then with invariant
memory) per candidate, stopping at the first attempt that reports. -/
theorem run_bounded_search (f : SILFunction) :
    (run f).2 ≤ 8
    ∧ (run f).2 ≤ 2 * (collectInvariantsToTry f).2.length
    ∧ (collectInvariantsToTry f).2.Nodup
    ∧ Invariants.noInvariants ∈ (collectInvariantsToTry f).2
    ∧ (collectInvariantsToTry f).2.length ≤ 4 := by
  obtain ⟨hn, hm, hl⟩ := collectInvariantsToTry_props f
  have hcount : (run f).2 ≤ 2 * (collectInvariantsToTry f).2.length := by
    by_cases hd : f.wasDeserializedCanonical = true
    · simp [run, hd]
    · simp only [Bool.not_eq_true] at hd
      by_cases hc : (collectInvariantsToTry f).1 = true
      · simp only [run, hd, Bool.false_eq_true, if_false, hc, if_true]
        exact tryInvariants_count_le f _
      · simp only [Bool.not_eq_true] at hc
        simp [run, hd, hc]
  exact ⟨by omega, hcount, hn, hm, hl⟩

theorem collectInsts_no_rec (pf pm : Nat) :
    ∀ (insts : List Inst) (acc : List Invariants) (found : Bool),
      (∀ i ∈ insts, isRecApplyInst pf pm i = false) →
      collectInsts pf pm insts acc found = (false, acc, found) := by
  intro insts
  induction insts with
  | nil => intro acc found _; rfl
  | cons inst rest ih =>
    intro acc found h
    have hrest : ∀ i ∈ rest, isRecApplyInst pf pm i = false :=
      fun i hi => h i (by simp [hi])
    cases inst with
    | applyI tp callee args w =>
      have hrec : isRecursiveCall ⟨pf, pm, callee⟩ = false := by
        have := h (Inst.applyI tp callee args w) (by simp)
        simpa [isRecApplyInst] using this
      simp only [collectInsts, hrec, Bool.false_eq_true, if_false]
      exact ih acc found hrest
    | loadI => simpa only [collectInsts] using ih acc found hrest
    | beginAccessI => simpa only [collectInsts] using ih acc found hrest
    | endAccessI => simpa only [collectInsts] using ih acc found hrest
    | otherI w => simpa only [collectInsts] using ih acc found hrest

theorem collectBlocks_no_rec (pf pm : Nat) {n : Nat} :
    ∀ (blocks : List (BasicBlock n)) (acc : List Invariants) (found : Bool),
      (∀ b ∈ blocks, ∀ i ∈ b.insts, isRecApplyInst pf pm i = false) →
      collectBlocks pf pm blocks acc found = (found, acc) := by
  intro blocks
  induction blocks with
  | nil => intro acc found _; rfl
  | cons b rest ih =>
    intro acc found h
    have hb := collectInsts_no_rec pf pm b.insts acc found
      (fun i hi => h b (by simp) i hi)
    have hrest : ∀ b1 ∈ rest, ∀ i ∈ b1.insts, isRecApplyInst pf pm i = false :=
      fun b1 hb1 i hi => h b1 (by simp [hb1]) i hi
    simp only [collectBlocks, hb, Bool.false_eq_true, if_false]
    exact ih acc found hrest

/-- C8: a function containing no self-recursive call in any of its blocks
produces zero diagnostics and zero analysis attempts: the driver returns
before building any block summary or running any backward or forward
propagation. -/
theorem run_fast_path (f : SILFunction)
    (h : ∀ b ∈ f.blocks, ∀ i ∈ b.insts, isRecApplyInst f.id f.moduleId i = false) :
    run f = ([], 0) := by
  by_cases hd : f.wasDeserializedCanonical = true
  · simp [run, hd]
  · simp only [Bool.not_eq_true] at hd
    have hc : collectInvariantsToTry f = (false, insertInv [] Invariants.noInvariants) :=
      collectBlocks_no_rec f.id f.moduleId f.blocks _ false h
    simp [run, hd, hc]

/-- Witness for C8: the example function whose only call targets a different
function is skipped entirely. -/
theorem run_fast_path_witness :
    (∀ b ∈ exampleFunNoRec.blocks, ∀ i ∈ b.insts,
      isRecApplyInst exampleFunNoRec.id exampleFunNoRec.moduleId i = false)
    ∧ run exampleFunNoRec = ([], 0) :=
  ⟨by decide, run_fast_path exampleFunNoRec (by decide)⟩

theorem hexDigitsBE_length (w : Nat) : ∀ v, (hexDigitsBE w v).length = w := by
  induction w with
  | zero => intro v; rfl
  | succ w ih => intro v; simp [hexDigitsBE, ih]

theorem hexDigitsBE_lt (w : Nat) : ∀ v, ∀ d ∈ hexDigitsBE w v, d < 16 := by
  induction w with
  | zero => intro v d hd; simp [hexDigitsBE] at hd
  | succ w ih =>
    intro v d hd
    simp only [hexDigitsBE, List.mem_append, List.mem_singleton] at hd
    rcases hd with hd | hd
    · exact ih (v / 16) d hd
    · rw [hd]; exact Nat.mod_lt v (by norm_num)

theorem hexDigitVal?_hexChar : ∀ d, d < 16 → hexDigitVal? (hexChar d) = some d := by
  decide

theorem parseHexAcc_map_hexChar :
    ∀ (ds : List Nat) (acc : Nat), (∀ d ∈ ds, d < 16) →
      parseHexAcc (ds.map hexChar) acc
        = ds.foldl (fun a d => a * 16 + d) acc := by
  intro ds
  induction ds with
  | nil => intro acc _; rfl
  | cons d rest ih =>
    intro acc h
    have hd : d < 16 := h d (by simp)
    simp only [List.map_cons, parseHexAcc, hexDigitVal?_hexChar d hd,
      List.foldl_cons]
    exact ih _ (fun x hx => h x (by simp [hx]))

theorem hexDigitsBE_foldl (w : Nat) :
    ∀ (v acc : Nat),
      (hexDigitsBE w v).foldl (fun a d => a * 16 + d) acc
        = acc * 16 ^ w + v % 16 ^ w := by
  induction w with
  | zero => intro v acc; simp [hexDigitsBE, Nat.mod_one]
  | succ w ih =>
    intro v acc
    simp only [hexDigitsBE, List.foldl_append, ih (v / 16) acc, List.foldl_cons,
      List.foldl_nil]
    have hm : v % 16 ^ (w + 1) = v % 16 + 16 * (v / 16 % 16 ^ w) := by
      rw [pow_succ']
      exact Nat.mod_mul
    rw [hm, pow_succ]
    ring

theorem parseHex_formatHex16 (v : Nat) (hv : v < 2 ^ 64) :
    parseHex (formatHex16 v) = v := by
  have h16 : (16 : Nat) ^ 16 = 2 ^ 64 := by norm_num
  rw [parseHex, formatHex16, parseHexAcc_map_hexChar _ 0 (hexDigitsBE_lt 16 v),
    hexDigitsBE_foldl 16 v 0]
  simp only [Nat.zero_mul, Nat.zero_add]
  rw [Nat.mod_eq_of_lt (by rw [h16]; exact hv)]

theorem formatHex16_length (v : Nat) : (formatHex16 v).length = 16 := by
  simp [formatHex16, hexDigitsBE_length]

/-- A lowercase hexadecimal digit character. -/
def isLowerHexDigit (c : Char) : Bool :=
  (48 ≤ c.toNat && c.toNat ≤ 57) || (97 ≤ c.toNat && c.toNat ≤ 102)

theorem formatHex16_lower_hex (v : Nat) :
    ∀ c ∈ formatHex16 v, isLowerHexDigit c = true := by
  intro c hc
  simp only [formatHex16, List.mem_map] at hc
  obtain ⟨d, hd, rfl⟩ := hc
  have hlt : d < 16 := hexDigitsBE_lt 16 v d hd
  have key : ∀ d, d < 16 → isLowerHexDigit (hexChar d) = true := by decide
  exact key d hlt

/-- C10: for every fingerprint made of two 64-bit words, `getRawValue` is a
32-character string of lowercase hexadecimal digits, and `fromString` on
that string succeeds and returns the same fingerprint (hex codec
round-trip). -/
theorem fingerprint_roundTrip (a b : Nat) (ha : a < 2 ^ 64) (hb : b < 2 ^ 64) :
    (Fingerprint.getRawValue ⟨a, b⟩).length = 32
    ∧ (∀ c ∈ Fingerprint.getRawValue ⟨a, b⟩, isLowerHexDigit c = true)
    ∧ Fingerprint.fromString (Fingerprint.getRawValue ⟨a, b⟩)
        = some ⟨a, b⟩ := by
  have hlen : (Fingerprint.getRawValue ⟨a, b⟩).length = 32 := by
    simp [Fingerprint.getRawValue, formatHex16_length]
  refine ⟨hlen, ?_, ?_⟩
  · intro c hc
    simp only [Fingerprint.getRawValue, List.mem_append] at hc
    rcases hc with hc | hc
    · exact formatHex16_lower_hex a c hc
    · exact formatHex16_lower_hex b c hc
  · have hd2 : digestLength / 2 = 16 := by decide
    have htake : (Fingerprint.getRawValue ⟨a, b⟩).take
        ((Fingerprint.getRawValue ⟨a, b⟩).length - digestLength / 2)
        = formatHex16 a := by
      rw [hlen, hd2]
      simp only [Fingerprint.getRawValue]
      exact List.take_left' (formatHex16_length a)
    have hdrop : (Fingerprint.getRawValue ⟨a, b⟩).drop (digestLength / 2)
        = formatHex16 b := by
      rw [hd2]
      simp only [Fingerprint.getRawValue]
      exact List.drop_left' (formatHex16_length a)
    rw [Fingerprint.fromString, htake, hdrop, parseHex_formatHex16 a ha,
      parseHex_formatHex16 b hb, if_pos rfl]

/-- Witness for C10: the round trip at a concrete pair of 64-bit words. -/
theorem fingerprint_roundTrip_witness :
    (Fingerprint.getRawValue ⟨1, 2 ^ 64 - 1⟩).length = 32
    ∧ (∀ c ∈ Fingerprint.getRawValue ⟨1, 2 ^ 64 - 1⟩, isLowerHexDigit c = true)
    ∧ Fingerprint.fromString (Fingerprint.getRawValue ⟨1, 2 ^ 64 - 1⟩)
        = some ⟨1, 2 ^ 64 - 1⟩ :=
  fingerprint_roundTrip 1 (2 ^ 64 - 1) (by norm_num) (by norm_num)
